import Mathlib

/-!
Shallow embedding of the fixed-width unsigned big-integer core
(`src/crypto-bigint/src/uint.rs`) and proofs about its arithmetic.

A `UInt` is an ordered list of limbs, least-significant first; a limb is a
64-bit machine word modelled as a `Nat` below `2 ^ 64`.  The limb count
`LIMBS` is a type parameter in the source; here it is the length of the
limb list, and well-formedness (`Wf n xs`) records both the length and the
per-limb bound.
-/

namespace CryptoBigint

/-- Number of bits in one limb (64-bit target, `Limb = u64`). -/
def limbBits : Nat := 64

/-- `2 ^ limbBits`: one more than the largest limb value. -/
def limbMax : Nat := 2 ^ limbBits

namespace limb

/-- Modelled from the spec: the limb primitive `limb::adc` (its source file is
not included; §6 treats it as a given branch-free building block).  Computes
`a + b + carry`, returning the low word and the carry-out. -/
def adc (a b carry : Nat) : Nat × Nat :=
  ((a + b + carry) % limbMax, (a + b + carry) / limbMax)

/-- Modelled from the spec: the limb primitive `limb::sbb`.  Computes
`a - (b + borrow)` wrapped to one limb, returning the difference and the
borrow-out bit. -/
def sbb (a b borrow : Nat) : Nat × Nat :=
  (((limbMax + a) - (b + borrow)) % limbMax, if a < b + borrow then 1 else 0)

/-- Modelled from the spec: the limb primitive `limb::mac`
(multiply-accumulate).  Computes `a + b * c + carry`, returning the low word
and the carry word. -/
def mac (a b c carry : Nat) : Nat × Nat :=
  ((a + b * c + carry) % limbMax, (a + b * c + carry) / limbMax)

/-- Model of the subtle crate's constant-time equality on limbs
(`ConstantTimeEq for u64`): the equality flag as a boolean. -/
def ct_eq (a b : Nat) : Bool := a == b

/-- Model of the subtle crate's branch-free limb selection
(`ConditionallySelectable for u64`): yields `a` when the choice is 0 (false)
and `b` when it is 1 (true). -/
def conditional_select (a b : Nat) (choice : Bool) : Nat :=
  if choice then b else a

end limb

/-- Model of subtle's `CtOption`: a payload together with a validity flag
(`Choice` modelled as `Bool`). -/
structure CtOption (α : Type) where
  value : α
  is_some : Bool
deriving DecidableEq

/-- `CtOption::new`. -/
def CtOption.new (value : α) (flag : Bool) : CtOption α := ⟨value, flag⟩

/-- Big unsigned integer: the inner limb array, stored from least significant
to most significant (`UInt<LIMBS>`; the limb count is the list length). -/
structure UInt where
  limbs : List Nat
deriving DecidableEq

namespace UInt

/-- `UInt::from_u8`: zero-extend a `u8` into the low limb
(`limbs = [0; LIMBS]; limbs[0] = n`). -/
def from_u8 (LIMBS n : Nat) : UInt :=
  ⟨(List.replicate LIMBS 0).set 0 (n % 2 ^ 8)⟩

/-- `UInt::ZERO = Self::from_u8(0)`. -/
def ZERO (LIMBS : Nat) : UInt := from_u8 LIMBS 0

/-- `UInt::ONE = Self::from_u8(1)`. -/
def ONE (LIMBS : Nat) : UInt := from_u8 LIMBS 1

/-- The limb-list recursion of `UInt::adc`: the source loops `i` over
`0..LIMBS`, feeding `limb::adc(self.limbs[i], rhs.limbs[i], carry)` and
propagating the carry. -/
def adcLimbs : List Nat → List Nat → Nat → List Nat × Nat
  | x :: xs, y :: ys, carry =>
    let p := limb.adc x y carry
    let q := adcLimbs xs ys p.2
    (p.1 :: q.1, q.2)
  | _, _, carry => ([], carry)

/-- `UInt::adc`: `a + b + carry`, returning the result and the new carry. -/
def adc (a rhs : UInt) (carry : Nat) : UInt × Nat :=
  let p := adcLimbs a.limbs rhs.limbs carry
  (⟨p.1⟩, p.2)

/-- The limb-list recursion of `UInt::sbb`, mirroring `adcLimbs`. -/
def sbbLimbs : List Nat → List Nat → Nat → List Nat × Nat
  | x :: xs, y :: ys, borrow =>
    let p := limb.sbb x y borrow
    let q := sbbLimbs xs ys p.2
    (p.1 :: q.1, q.2)
  | _, _, borrow => ([], borrow)

/-- `UInt::sbb`: `a - (b + borrow)`, returning the result and the new
borrow. -/
def sbb (a rhs : UInt) (borrow : Nat) : UInt × Nat :=
  let p := sbbLimbs a.limbs rhs.limbs borrow
  (⟨p.1⟩, p.2)

/-- Body of the inner `while j < LIMBS` loop of `UInt::mul_wide`: state is
`(lo, hi, carry)`; with `k = i + j`, accumulate into `hi[k - LIMBS]` when
`k >= LIMBS` and into `lo[k]` otherwise. -/
def mulWideInner (LIMBS i ai : Nat) (rhs : List Nat)
    (st : List Nat × List Nat × Nat) (j : Nat) : List Nat × List Nat × Nat :=
  let k := i + j
  if LIMBS ≤ k then
    let p := limb.mac (st.2.1.getD (k - LIMBS) 0) ai (rhs.getD j 0) st.2.2
    (st.1, st.2.1.set (k - LIMBS) p.1, p.2)
  else
    let p := limb.mac (st.1.getD k 0) ai (rhs.getD j 0) st.2.2
    (st.1.set k p.1, st.2.1, p.2)

/-- Body of the outer `while i < LIMBS` loop of `UInt::mul_wide`: run the
inner loop with carry 0, then deposit the final carry into
`hi[i + j - LIMBS]` where `j = LIMBS` at loop exit, i.e. `hi[i]`. -/
def mulWideOuter (LIMBS : Nat) (a rhs : List Nat)
    (st : List Nat × List Nat) (i : Nat) : List Nat × List Nat :=
  let r := (List.range LIMBS).foldl (mulWideInner LIMBS i (a.getD i 0) rhs)
    (st.1, st.2, 0)
  (r.1, r.2.1.set i r.2.2)

/-- `UInt::mul_wide`: schoolbook multiplication with a double-width product,
returned as `(hi, lo)`.  Both accumulators start as `Self::ZERO`. -/
def mul_wide (a rhs : UInt) : UInt × UInt :=
  let LIMBS := a.limbs.length
  let r := (List.range LIMBS).foldl (mulWideOuter LIMBS a.limbs rhs.limbs)
    ((ZERO LIMBS).limbs, (ZERO LIMBS).limbs)
  (⟨r.2⟩, ⟨r.1⟩)

/-- `UInt::wrapping_add`: `self.adc(rhs, 0).0`. -/
def wrapping_add (a rhs : UInt) : UInt := (a.adc rhs 0).1

/-- `UInt::wrapping_sub`: `self.sbb(rhs, 0).0`. -/
def wrapping_sub (a rhs : UInt) : UInt := (a.sbb rhs 0).1

/-- `UInt::wrapping_mul`: `self.mul_wide(rhs).0` — the FIRST component of
`mul_wide`, which is the high half. -/
def wrapping_mul (a rhs : UInt) : UInt := (a.mul_wide rhs).1

/-- `UInt::checked_add`: `CtOption::new(result, carry.ct_eq(&0))`. -/
def checked_add (a rhs : UInt) : CtOption UInt :=
  let p := a.adc rhs 0
  CtOption.new p.1 (limb.ct_eq p.2 0)

/-- `UInt::checked_sub`: `CtOption::new(result, underflow.ct_eq(&0))`. -/
def checked_sub (a rhs : UInt) : CtOption UInt :=
  let p := a.sbb rhs 0
  CtOption.new p.1 (limb.ct_eq p.2 0)

/-- `UInt::ct_eq` (`ConstantTimeEq`): fold of per-limb equality flags under
AND, starting from `Choice::from(1)`, with no short-circuit. -/
def ct_eq (a other : UInt) : Bool :=
  (a.limbs.zip other.limbs).foldl (fun acc p => acc && limb.ct_eq p.1 p.2) true

/-- `UInt::is_zero`: `self.ct_eq(&Self::ZERO)`. -/
def is_zero (a : UInt) : Bool := a.ct_eq (ZERO a.limbs.length)

/-- `UInt::checked_mul`: `let (hi, lo) = self.mul_wide(rhs);
CtOption::new(lo, hi.is_zero())`. -/
def checked_mul (a rhs : UInt) : CtOption UInt :=
  let p := a.mul_wide rhs
  CtOption.new p.2 p.1.is_zero

/-- `ConditionallySelectable::conditional_select` for `UInt`, exactly as the
source writes it: every destination limb `i` in `0..LIMBS` is
`Limb::conditional_select(&a.limbs[0], &b.limbs[0], choice)` — the source
limb index is the constant 0. -/
def conditional_select (a b : UInt) (choice : Bool) : UInt :=
  ⟨(List.range a.limbs.length).map fun _ =>
    limb.conditional_select (a.limbs.getD 0 0) (b.limbs.getD 0 0) choice⟩

/-- `Concat::concat`: the output's low limbs are `rhs`'s and its high limbs
are `self`'s (`lo.copy_from_slice(&rhs.limbs); hi.copy_from_slice(&self.limbs)`),
so `hi.concat(&lo)` places `hi` on top. -/
def concat (a rhs : UInt) : UInt := ⟨rhs.limbs ++ a.limbs⟩

/-- `Split::split`: `split_at(len / 2)` yields `(lo_in, hi_in)`; the result is
`(hi_out, lo_out)`. -/
def split (a : UInt) : UInt × UInt :=
  (⟨a.limbs.drop (a.limbs.length / 2)⟩, ⟨a.limbs.take (a.limbs.length / 2)⟩)

end UInt

/-- The numeric value of a limb list, least-significant limb first. -/
def val : List Nat → Nat
  | [] => 0
  | x :: xs => x + limbMax * val xs

/-- The numeric value of a `UInt`. -/
def UInt.toNat (a : UInt) : Nat := val a.limbs

/-- Well-formedness of a limb list for limb count `n`: right length, and
every limb below `2 ^ 64`. -/
def Wf (n : Nat) (xs : List Nat) : Prop :=
  xs.length = n ∧ ∀ x ∈ xs, x < limbMax

instance (n : Nat) (xs : List Nat) : Decidable (Wf n xs) :=
  inferInstanceAs (Decidable (xs.length = n ∧ ∀ x ∈ xs, x < limbMax))

/-! ### Basic facts about `val` and limb lists -/

theorem limbMax_pos : 0 < limbMax := Nat.pos_pow_of_pos _ (by decide)

theorem limbMax_gt_one : 1 < limbMax := by
  show 1 < 2 ^ limbBits
  norm_num [limbBits]

theorem val_nil : val [] = 0 := rfl

theorem val_cons (x : Nat) (xs : List Nat) :
    val (x :: xs) = x + limbMax * val xs := rfl

theorem val_append : ∀ (xs ys : List Nat),
    val (xs ++ ys) = val xs + limbMax ^ xs.length * val ys
  | [], ys => by simp [val]
  | x :: xs, ys => by
    simp only [List.cons_append, val_cons, val_append xs ys, List.length_cons]
    ring

theorem val_lt : ∀ {xs : List Nat}, (∀ x ∈ xs, x < limbMax) →
    val xs < limbMax ^ xs.length
  | [], _ => by simp [val]
  | x :: xs, h => by
    have hx : x < limbMax := h x (List.mem_cons_self _ _)
    have hxs : val xs < limbMax ^ xs.length :=
      val_lt fun y hy => h y (List.mem_cons_of_mem _ hy)
    have h1 : x + limbMax * val xs + 1 ≤ limbMax * (val xs + 1) := by
      have := Nat.succ_le_of_lt hx
      calc x + limbMax * val xs + 1 = (x + 1) + limbMax * val xs := by ring
        _ ≤ limbMax + limbMax * val xs := by omega
        _ = limbMax * (val xs + 1) := by ring
    have h2 : limbMax * (val xs + 1) ≤ limbMax * limbMax ^ xs.length :=
      Nat.mul_le_mul_left _ (Nat.succ_le_of_lt hxs)
    simp only [val_cons, List.length_cons, pow_succ]
    calc x + limbMax * val xs < limbMax * (val xs + 1) := by omega
      _ ≤ limbMax * limbMax ^ xs.length := h2
      _ = limbMax ^ xs.length * limbMax := by ring

theorem val_set : ∀ (xs : List Nat) (i w : Nat), i < xs.length →
    val (xs.set i w) + xs.getD i 0 * limbMax ^ i = val xs + w * limbMax ^ i
  | x :: xs, 0, w, _ => by
    simp only [List.set_cons_zero, val_cons, List.getD_cons_zero, pow_zero]
    ring
  | x :: xs, i + 1, w, h => by
    have ih := val_set xs i w (by simpa using h)
    simp only [List.set_cons_succ, val_cons, List.getD_cons_succ]
    calc x + limbMax * val (xs.set i w) + xs.getD i 0 * limbMax ^ (i + 1)
        = x + limbMax * (val (xs.set i w) + xs.getD i 0 * limbMax ^ i) := by ring
      _ = x + limbMax * (val xs + w * limbMax ^ i) := by rw [ih]
      _ = x + limbMax * val xs + w * limbMax ^ (i + 1) := by ring

theorem val_inj : ∀ {xs ys : List Nat}, xs.length = ys.length →
    (∀ x ∈ xs, x < limbMax) → (∀ y ∈ ys, y < limbMax) →
    val xs = val ys → xs = ys
  | [], [], _, _, _, _ => rfl
  | x :: xs, y :: ys, hlen, hx, hy, hv => by
    have hx0 : x < limbMax := hx x (List.mem_cons_self _ _)
    have hy0 : y < limbMax := hy y (List.mem_cons_self _ _)
    have hv' : x + limbMax * val xs = y + limbMax * val ys := hv
    have hxy : x = y := by
      have h1 : (x + limbMax * val xs) % limbMax = x := by
        rw [Nat.add_mul_mod_self_left]
        exact Nat.mod_eq_of_lt hx0
      have h2 : (y + limbMax * val ys) % limbMax = y := by
        rw [Nat.add_mul_mod_self_left]
        exact Nat.mod_eq_of_lt hy0
      rw [← h1, ← h2, hv']
    have htail : val xs = val ys := by
      have : limbMax * val xs = limbMax * val ys := by omega
      exact Nat.eq_of_mul_eq_mul_left limbMax_pos this
    have : xs = ys := val_inj (by simpa using hlen)
      (fun a ha => hx a (List.mem_cons_of_mem _ ha))
      (fun a ha => hy a (List.mem_cons_of_mem _ ha)) htail
    rw [hxy, this]

theorem val_replicate_zero : ∀ (n : Nat), val (List.replicate n 0) = 0
  | 0 => rfl
  | n + 1 => by simp [List.replicate, val_cons, val_replicate_zero n]

theorem zero_limbs (n : Nat) : (UInt.ZERO n).limbs = List.replicate n 0 := by
  cases n with
  | zero => rfl
  | succ m => simp [UInt.ZERO, UInt.from_u8, List.replicate]

theorem one_limbs (n : Nat) (h : 1 ≤ n) :
    (UInt.ONE n).limbs = 1 :: List.replicate (n - 1) 0 := by
  cases n with
  | zero => omega
  | succ m => simp [UInt.ONE, UInt.from_u8, List.replicate]

theorem val_one (n : Nat) (h : 1 ≤ n) : val (UInt.ONE n).limbs = 1 := by
  rw [one_limbs n h]
  simp [val_cons, val_replicate_zero]

theorem val_zero (n : Nat) : val (UInt.ZERO n).limbs = 0 := by
  rw [zero_limbs n]
  exact val_replicate_zero n

theorem wf_zero (n : Nat) : Wf n (UInt.ZERO n).limbs := by
  rw [zero_limbs n]
  refine ⟨by simp, fun x hx => ?_⟩
  rw [List.eq_of_mem_replicate hx]
  exact limbMax_pos

theorem wf_one (n : Nat) (h : 1 ≤ n) : Wf n (UInt.ONE n).limbs := by
  rw [one_limbs n h]
  refine ⟨by simp; omega, fun x hx => ?_⟩
  rcases List.mem_cons.mp hx with h1 | h1
  · rw [h1]; exact limbMax_gt_one
  · rw [List.eq_of_mem_replicate h1]; exact limbMax_pos

/-- Each limb of a well-formed list is below `limbMax`; the out-of-range
default 0 also is. -/
theorem getD_lt_of_wf {xs : List Nat} (h : ∀ x ∈ xs, x < limbMax) (i : Nat) :
    xs.getD i 0 < limbMax := by
  by_cases hi : i < xs.length
  · rw [List.getD_eq_getElem _ _ hi]
    exact h _ (List.getElem_mem hi)
  · rw [List.getD_eq_default _ _ (by omega)]
    exact limbMax_pos

theorem wf_set {n : Nat} {xs : List Nat} (h : Wf n xs) {w : Nat}
    (hw : w < limbMax) (i : Nat) : Wf n (xs.set i w) := by
  refine ⟨by simpa using h.1, fun x hx => ?_⟩
  rcases List.mem_or_eq_of_mem_set hx with h1 | h1
  · exact h.2 x h1
  · rw [h1]; exact hw

/-! ### Addition with carry -/

theorem limb_adc_spec (a b c : Nat) :
    (limb.adc a b c).1 + limbMax * (limb.adc a b c).2 = a + b + c ∧
    (limb.adc a b c).1 < limbMax :=
  ⟨Nat.mod_add_div _ _, Nat.mod_lt _ limbMax_pos⟩

theorem limb_adc_carry_le (a b c : Nat) (ha : a < limbMax) (hb : b < limbMax)
    (hc : c ≤ 1) : (limb.adc a b c).2 ≤ 1 := by
  have h2 : a + b + c < 2 * limbMax := by omega
  have := (Nat.div_lt_iff_lt_mul limbMax_pos).mpr (by omega : a + b + c < 2 * limbMax)
  simpa [limb.adc] using Nat.lt_succ_iff.mp this

/-- Ripple-carry addition: value identity, carry bound, output length, and
well-formedness of the output limbs, all at once. -/
theorem adcLimbs_spec : ∀ (xs ys : List Nat) (c : Nat), xs.length = ys.length →
    (∀ x ∈ xs, x < limbMax) → (∀ y ∈ ys, y < limbMax) → c ≤ 1 →
    val (UInt.adcLimbs xs ys c).1 + limbMax ^ xs.length * (UInt.adcLimbs xs ys c).2
        = val xs + val ys + c ∧
    (UInt.adcLimbs xs ys c).2 ≤ 1 ∧
    (UInt.adcLimbs xs ys c).1.length = xs.length ∧
    (∀ w ∈ (UInt.adcLimbs xs ys c).1, w < limbMax)
  | [], [], c, _, _, _, hc => by
    refine ⟨by simp [UInt.adcLimbs, val_nil], hc, rfl, by simp [UInt.adcLimbs]⟩
  | x :: xs, y :: ys, c, hlen, hx, hy, hc => by
    have hx0 : x < limbMax := hx x (List.mem_cons_self _ _)
    have hy0 : y < limbMax := hy y (List.mem_cons_self _ _)
    have hcarry : (limb.adc x y c).2 ≤ 1 := limb_adc_carry_le x y c hx0 hy0 hc
    have ih := adcLimbs_spec xs ys (limb.adc x y c).2 (by simpa using hlen)
      (fun a ha => hx a (List.mem_cons_of_mem _ ha))
      (fun a ha => hy a (List.mem_cons_of_mem _ ha)) hcarry
    have hunfold : UInt.adcLimbs (x :: xs) (y :: ys) c =
        ((limb.adc x y c).1 :: (UInt.adcLimbs xs ys (limb.adc x y c).2).1,
          (UInt.adcLimbs xs ys (limb.adc x y c).2).2) := rfl
    rw [hunfold]
    refine ⟨?_, ih.2.1, by simpa using ih.2.2.1, ?_⟩
    · have hlimb := (limb_adc_spec x y c).1
      simp only [val_cons, List.length_cons]
      calc (limb.adc x y c).1 + limbMax * val (UInt.adcLimbs xs ys (limb.adc x y c).2).1
            + limbMax ^ (xs.length + 1) * (UInt.adcLimbs xs ys (limb.adc x y c).2).2
          = (limb.adc x y c).1 +
            limbMax * (val (UInt.adcLimbs xs ys (limb.adc x y c).2).1
              + limbMax ^ xs.length * (UInt.adcLimbs xs ys (limb.adc x y c).2).2) := by
            ring
        _ = (limb.adc x y c).1 + limbMax * (val xs + val ys + (limb.adc x y c).2) := by
            rw [ih.1]
        _ = ((limb.adc x y c).1 + limbMax * (limb.adc x y c).2)
              + limbMax * val xs + limbMax * val ys := by ring
        _ = (x + y + c) + limbMax * val xs + limbMax * val ys := by rw [hlimb]
        _ = (x + limbMax * val xs) + (y + limbMax * val ys) + c := by ring
    · intro w hw
      rcases List.mem_cons.mp hw with h1 | h1
      · rw [h1]; exact (limb_adc_spec x y c).2
      · exact ih.2.2.2 w h1

/-! ### Subtraction with borrow -/

theorem limb_sbb_spec (a b borrow : Nat) (ha : a < limbMax) (hb : b < limbMax)
    (hbor : borrow ≤ 1) :
    a + limbMax * (limb.sbb a b borrow).2 = (limb.sbb a b borrow).1 + b + borrow ∧
    (limb.sbb a b borrow).1 < limbMax ∧ (limb.sbb a b borrow).2 ≤ 1 := by
  by_cases h : a < b + borrow
  · have hv : limbMax + a - (b + borrow) < limbMax := by omega
    have hmod : (limbMax + a - (b + borrow)) % limbMax = limbMax + a - (b + borrow) :=
      Nat.mod_eq_of_lt hv
    simp only [limb.sbb, if_pos h, hmod]
    refine ⟨by omega, hv, le_refl 1⟩
  · have hsub : limbMax + a - (b + borrow) = limbMax + (a - (b + borrow)) := by omega
    have hlt : a - (b + borrow) < limbMax := by omega
    have hmod : (limbMax + a - (b + borrow)) % limbMax = a - (b + borrow) := by
      rw [hsub, Nat.add_mod_left]
      exact Nat.mod_eq_of_lt hlt
    simp only [limb.sbb, if_neg h, hmod]
    refine ⟨by omega, hlt, by omega⟩

/-- Ripple-borrow subtraction: value identity, borrow bound, output length,
and well-formedness of the output limbs. -/
theorem sbbLimbs_spec : ∀ (xs ys : List Nat) (c : Nat), xs.length = ys.length →
    (∀ x ∈ xs, x < limbMax) → (∀ y ∈ ys, y < limbMax) → c ≤ 1 →
    val xs + limbMax ^ xs.length * (UInt.sbbLimbs xs ys c).2
        = val (UInt.sbbLimbs xs ys c).1 + val ys + c ∧
    (UInt.sbbLimbs xs ys c).2 ≤ 1 ∧
    (UInt.sbbLimbs xs ys c).1.length = xs.length ∧
    (∀ w ∈ (UInt.sbbLimbs xs ys c).1, w < limbMax)
  | [], [], c, _, _, _, hc => by
    refine ⟨by simp [UInt.sbbLimbs, val_nil], hc, rfl, by simp [UInt.sbbLimbs]⟩
  | x :: xs, y :: ys, c, hlen, hx, hy, hc => by
    have hx0 : x < limbMax := hx x (List.mem_cons_self _ _)
    have hy0 : y < limbMax := hy y (List.mem_cons_self _ _)
    have hlimb := limb_sbb_spec x y c hx0 hy0 hc
    have ih := sbbLimbs_spec xs ys (limb.sbb x y c).2 (by simpa using hlen)
      (fun a ha => hx a (List.mem_cons_of_mem _ ha))
      (fun a ha => hy a (List.mem_cons_of_mem _ ha)) hlimb.2.2
    have hunfold : UInt.sbbLimbs (x :: xs) (y :: ys) c =
        ((limb.sbb x y c).1 :: (UInt.sbbLimbs xs ys (limb.sbb x y c).2).1,
          (UInt.sbbLimbs xs ys (limb.sbb x y c).2).2) := rfl
    rw [hunfold]
    refine ⟨?_, ih.2.1, by simpa using ih.2.2.1, ?_⟩
    · simp only [val_cons, List.length_cons]
      calc (x + limbMax * val xs)
            + limbMax ^ (xs.length + 1) * (UInt.sbbLimbs xs ys (limb.sbb x y c).2).2
          = x + limbMax * (val xs
              + limbMax ^ xs.length * (UInt.sbbLimbs xs ys (limb.sbb x y c).2).2) := by
            ring
        _ = x + limbMax * (val (UInt.sbbLimbs xs ys (limb.sbb x y c).2).1
              + val ys + (limb.sbb x y c).2) := by rw [ih.1]
        _ = (x + limbMax * (limb.sbb x y c).2)
              + limbMax * val (UInt.sbbLimbs xs ys (limb.sbb x y c).2).1
              + limbMax * val ys := by ring
        _ = ((limb.sbb x y c).1 + y + c)
              + limbMax * val (UInt.sbbLimbs xs ys (limb.sbb x y c).2).1
              + limbMax * val ys := by rw [hlimb.1]
        _ = ((limb.sbb x y c).1
              + limbMax * val (UInt.sbbLimbs xs ys (limb.sbb x y c).2).1)
              + (y + limbMax * val ys) + c := by ring
    · intro w hw
      rcases List.mem_cons.mp hw with h1 | h1
      · rw [h1]; exact hlimb.2.1
      · exact ih.2.2.2 w h1

/-! ### Constant-time equality -/

theorem UInt.limbs_ext {a b : UInt} (h : a.limbs = b.limbs) : a = b := by
  cases a; cases b; simpa using h

theorem foldl_and_flags : ∀ (zs : List (Nat × Nat)) (acc : Bool),
    zs.foldl (fun acc p => acc && limb.ct_eq p.1 p.2) acc
      = (acc && zs.all fun p => p.1 == p.2)
  | [], acc => by simp
  | z :: zs, acc => by
    rw [List.foldl_cons, foldl_and_flags zs, List.all_cons]
    simp [limb.ct_eq, Bool.and_assoc]

theorem ct_eq_eq_all (a b : UInt) :
    UInt.ct_eq a b = ((a.limbs.zip b.limbs).all fun p => p.1 == p.2) := by
  simp [UInt.ct_eq, foldl_and_flags]

theorem zip_all_eq_iff : ∀ (xs ys : List Nat), xs.length = ys.length →
    (((xs.zip ys).all fun p => p.1 == p.2) = true ↔
      ∀ i, i < xs.length → xs.getD i 0 = ys.getD i 0)
  | [], [], _ => by simp
  | x :: xs, y :: ys, h => by
    simp only [List.zip_cons_cons, List.all_cons, Bool.and_eq_true, beq_iff_eq]
    constructor
    · rintro ⟨h1, h2⟩ i hi
      cases i with
      | zero => simpa using h1
      | succ j =>
        have := (zip_all_eq_iff xs ys (by simpa using h)).mp h2 j (by simpa using hi)
        simpa using this
    · intro hAll
      refine ⟨by simpa using hAll 0 (by simp), ?_⟩
      refine (zip_all_eq_iff xs ys (by simpa using h)).mpr ?_
      intro j hj
      have := hAll (j + 1) (by simpa using hj)
      simpa using this

theorem eq_of_getD_eq : ∀ {xs ys : List Nat}, xs.length = ys.length →
    (∀ i, i < xs.length → xs.getD i 0 = ys.getD i 0) → xs = ys
  | [], [], _, _ => rfl
  | x :: xs, y :: ys, h, hAll => by
    have h0 : x = y := by simpa using hAll 0 (by simp)
    have htail : xs = ys := by
      refine eq_of_getD_eq (by simpa using h) ?_
      intro i hi
      have := hAll (i + 1) (by simpa using hi)
      simpa using this
    rw [h0, htail]

/-- With equal limb counts, the constant-time equality flag is list
equality. -/
theorem ct_eq_iff_eq {a b : UInt} (h : a.limbs.length = b.limbs.length) :
    UInt.ct_eq a b = true ↔ a.limbs = b.limbs := by
  rw [ct_eq_eq_all]
  rw [zip_all_eq_iff a.limbs b.limbs h]
  constructor
  · intro hAll
    exact eq_of_getD_eq h hAll
  · intro heq i _
    rw [heq]

/-! ### Wide multiplication: loop invariants -/

theorem getD_set_ne (xs : List Nat) (i j w : Nat) (h : i ≠ j) :
    (xs.set i w).getD j 0 = xs.getD j 0 := by
  by_cases hj : j < xs.length
  · rw [List.getD_eq_getElem _ _ (by simpa using hj), List.getD_eq_getElem _ _ hj]
    exact List.getElem_set_ne h _
  · rw [List.getD_eq_default _ _ (by simpa using Nat.le_of_not_lt hj),
      List.getD_eq_default _ _ (Nat.le_of_not_lt hj)]

theorem getD_replicate_zero (n k : Nat) : (List.replicate n 0).getD k 0 = 0 := by
  by_cases h : k < n
  · rw [List.getD_eq_getElem _ _ (by simpa using h)]
    exact List.getElem_replicate _ _
  · exact List.getD_eq_default _ _ (by simpa using Nat.le_of_not_lt h)

theorem val_take_succ : ∀ (bs : List Nat) (m : Nat), m < bs.length →
    val (bs.take (m + 1)) = val (bs.take m) + bs.getD m 0 * limbMax ^ m
  | b :: bs, 0, _ => by simp [val_cons, val_nil]
  | b :: bs, m + 1, h => by
    simp only [List.take_succ_cons, val_cons, List.getD_cons_succ]
    rw [val_take_succ bs m (by simpa using h)]
    ring

theorem limb_mac_spec (a b c carry : Nat) :
    (limb.mac a b c carry).1 + limbMax * (limb.mac a b c carry).2
        = a + b * c + carry ∧
    (limb.mac a b c carry).1 < limbMax :=
  ⟨Nat.mod_add_div _ _, Nat.mod_lt _ limbMax_pos⟩

theorem limb_mac_carry_lt (a b c carry : Nat) (ha : a < limbMax)
    (hb : b < limbMax) (hc : c < limbMax) (hcar : carry < limbMax) :
    (limb.mac a b c carry).2 < limbMax := by
  have hbc : b * c ≤ (limbMax - 1) * (limbMax - 1) :=
    Nat.mul_le_mul (by omega) (by omega)
  have hkey : (limbMax - 1) + (limbMax - 1) * (limbMax - 1) + (limbMax - 1)
      < limbMax * limbMax := by decide
  have hlt : a + b * c + carry < limbMax * limbMax := by omega
  simpa [limb.mac] using (Nat.div_lt_iff_lt_mul limbMax_pos).mpr hlt

/-- One pass of the inner loop body, viewed on the combined accumulator
`lo ++ hi`: the branch on `k >= LIMBS` is exactly a write at combined
position `i + j`. -/
theorem mulWideInner_step (n i ai : Nat) (bs lo hi : List Nat) (c j : Nat)
    (hlo : lo.length = n) :
    (UInt.mulWideInner n i ai bs (lo, hi, c) j).1
        ++ (UInt.mulWideInner n i ai bs (lo, hi, c) j).2.1
      = (lo ++ hi).set (i + j)
          (limb.mac ((lo ++ hi).getD (i + j) 0) ai (bs.getD j 0) c).1 ∧
    (UInt.mulWideInner n i ai bs (lo, hi, c) j).2.2
      = (limb.mac ((lo ++ hi).getD (i + j) 0) ai (bs.getD j 0) c).2 ∧
    (UInt.mulWideInner n i ai bs (lo, hi, c) j).1.length = lo.length ∧
    (UInt.mulWideInner n i ai bs (lo, hi, c) j).2.1.length = hi.length := by
  by_cases h : n ≤ i + j
  · have hread : hi.getD (i + j - n) 0 = (lo ++ hi).getD (i + j) 0 := by
      rw [List.getD_append_right lo hi 0 (i + j) (by omega), hlo]
    have hwrite : ∀ w, lo ++ hi.set (i + j - n) w = (lo ++ hi).set (i + j) w := by
      intro w
      rw [List.set_append_right _ _ (by rw [hlo]; omega : lo.length ≤ i + j), hlo]
    simp only [UInt.mulWideInner, if_pos h]
    refine ⟨by rw [hread, hwrite], by rw [hread], ?_, ?_⟩ <;> simp
  · have hlt : i + j < lo.length := by omega
    have hread : lo.getD (i + j) 0 = (lo ++ hi).getD (i + j) 0 := by
      rw [List.getD_append lo hi 0 (i + j) hlt]
    have hwrite : ∀ w, lo.set (i + j) w ++ hi = (lo ++ hi).set (i + j) w := by
      intro w
      rw [List.set_append_left _ _ hlt]
    simp only [UInt.mulWideInner, if_neg h]
    refine ⟨by rw [hread, hwrite], by rw [hread], ?_, ?_⟩ <;> simp

/-- The state of the inner loop of `mul_wide` after `m` of its `LIMBS`
iterations, starting from accumulators `lo`, `hi` and carry 0. -/
def innerState (n i ai : Nat) (bs lo hi : List Nat) (m : Nat) :
    List Nat × List Nat × Nat :=
  (List.range m).foldl (UInt.mulWideInner n i ai bs) (lo, hi, 0)

theorem innerState_succ (n i ai : Nat) (bs lo hi : List Nat) (m : Nat) :
    innerState n i ai bs lo hi (m + 1)
      = UInt.mulWideInner n i ai bs (innerState n i ai bs lo hi m) m := by
  unfold innerState
  rw [List.range_succ, List.foldl_append, List.foldl_cons, List.foldl_nil]

/-- Effect of one inner-loop step on the invariant quantities. -/
theorem mulWideInner_step_spec (n i ai : Nat) (bs : List Nat)
    (S : List Nat × List Nat × Nat) (m : Nat)
    (hbw : ∀ x ∈ bs, x < limbMax) (hai : ai < limbMax) (hin : i < n)
    (hmlt : m < n)
    (hlen1 : S.1.length = n) (hlen2 : S.2.1.length = n)
    (hwfS : ∀ x ∈ S.1 ++ S.2.1, x < limbMax) (hcS : S.2.2 < limbMax) :
    val ((UInt.mulWideInner n i ai bs S m).1 ++ (UInt.mulWideInner n i ai bs S m).2.1)
        + (UInt.mulWideInner n i ai bs S m).2.2 * limbMax ^ (i + (m + 1))
      = val (S.1 ++ S.2.1) + S.2.2 * limbMax ^ (i + m)
        + ai * bs.getD m 0 * limbMax ^ (i + m) ∧
    (UInt.mulWideInner n i ai bs S m).1.length = n ∧
    (UInt.mulWideInner n i ai bs S m).2.1.length = n ∧
    (∀ x ∈ (UInt.mulWideInner n i ai bs S m).1
        ++ (UInt.mulWideInner n i ai bs S m).2.1, x < limbMax) ∧
    (UInt.mulWideInner n i ai bs S m).2.2 < limbMax ∧
    ∀ k, k ≠ i + m →
      ((UInt.mulWideInner n i ai bs S m).1
        ++ (UInt.mulWideInner n i ai bs S m).2.1).getD k 0
        = (S.1 ++ S.2.1).getD k 0 := by
  obtain ⟨s1, s2, s3⟩ := S
  dsimp only at hlen1 hlen2 hwfS hcS ⊢
  obtain ⟨hcomb, hcarry, hl1, hl2⟩ := mulWideInner_step n i ai bs s1 s2 s3 m hlen1
  have hklt : i + m < (s1 ++ s2).length := by
    rw [List.length_append, hlen1, hlen2]; omega
  have hold : (s1 ++ s2).getD (i + m) 0 < limbMax := getD_lt_of_wf hwfS _
  have hbj : bs.getD m 0 < limbMax := getD_lt_of_wf hbw _
  have hmac := limb_mac_spec ((s1 ++ s2).getD (i + m) 0) ai (bs.getD m 0) s3
  have hmacc := limb_mac_carry_lt _ _ _ _ hold hai hbj hcS
  have hset := val_set (s1 ++ s2) (i + m)
    (limb.mac ((s1 ++ s2).getD (i + m) 0) ai (bs.getD m 0) s3).1 hklt
  refine ⟨?_, by rw [hl1, hlen1], by rw [hl2, hlen2], ?_, by rw [hcarry]; exact hmacc, ?_⟩
  · rw [hcomb, hcarry]
    have key : val ((s1 ++ s2).set (i + m)
          (limb.mac ((s1 ++ s2).getD (i + m) 0) ai (bs.getD m 0) s3).1)
          + (limb.mac ((s1 ++ s2).getD (i + m) 0) ai (bs.getD m 0) s3).2
            * limbMax ^ (i + (m + 1))
          + (s1 ++ s2).getD (i + m) 0 * limbMax ^ (i + m)
        = (val (s1 ++ s2) + s3 * limbMax ^ (i + m)
            + ai * bs.getD m 0 * limbMax ^ (i + m))
          + (s1 ++ s2).getD (i + m) 0 * limbMax ^ (i + m) := by
      calc val ((s1 ++ s2).set (i + m)
              (limb.mac ((s1 ++ s2).getD (i + m) 0) ai (bs.getD m 0) s3).1)
            + (limb.mac ((s1 ++ s2).getD (i + m) 0) ai (bs.getD m 0) s3).2
              * limbMax ^ (i + (m + 1))
            + (s1 ++ s2).getD (i + m) 0 * limbMax ^ (i + m)
          = (val ((s1 ++ s2).set (i + m)
              (limb.mac ((s1 ++ s2).getD (i + m) 0) ai (bs.getD m 0) s3).1)
              + (s1 ++ s2).getD (i + m) 0 * limbMax ^ (i + m))
            + (limb.mac ((s1 ++ s2).getD (i + m) 0) ai (bs.getD m 0) s3).2
              * limbMax ^ (i + (m + 1)) := by ring
        _ = (val (s1 ++ s2)
              + (limb.mac ((s1 ++ s2).getD (i + m) 0) ai (bs.getD m 0) s3).1
                * limbMax ^ (i + m))
            + (limb.mac ((s1 ++ s2).getD (i + m) 0) ai (bs.getD m 0) s3).2
              * limbMax ^ (i + (m + 1)) := by rw [hset]
        _ = val (s1 ++ s2)
            + ((limb.mac ((s1 ++ s2).getD (i + m) 0) ai (bs.getD m 0) s3).1
              + limbMax
                * (limb.mac ((s1 ++ s2).getD (i + m) 0) ai (bs.getD m 0) s3).2)
              * limbMax ^ (i + m) := by ring
        _ = val (s1 ++ s2)
            + ((s1 ++ s2).getD (i + m) 0 + ai * bs.getD m 0 + s3)
              * limbMax ^ (i + m) := by rw [hmac.1]
        _ = (val (s1 ++ s2) + s3 * limbMax ^ (i + m)
              + ai * bs.getD m 0 * limbMax ^ (i + m))
            + (s1 ++ s2).getD (i + m) 0 * limbMax ^ (i + m) := by ring
    exact Nat.add_right_cancel key
  · intro x hx
    rw [hcomb] at hx
    rcases List.mem_or_eq_of_mem_set hx with h1 | h1
    · exact hwfS x h1
    · rw [h1]; exact hmac.2
  · intro k hk
    rw [hcomb]
    exact getD_set_ne _ _ _ _ (fun h => hk h.symm)

/-- Invariant of the inner loop: after `m` iterations the combined
accumulator has absorbed `ai * M^i * val (bs.take m)`, the pending carry sits
at weight `M^(i+m)`, only positions `i .. i+m-1` were touched, and every
entry and the carry stay below `M`. -/
theorem innerState_spec (n i ai : Nat) (bs : List Nat) (hbn : bs.length = n)
    (hbw : ∀ x ∈ bs, x < limbMax) (hai : ai < limbMax) (hin : i < n) :
    ∀ (m : Nat), m ≤ n → ∀ (lo hi : List Nat),
    lo.length = n → hi.length = n → (∀ x ∈ lo ++ hi, x < limbMax) →
    val ((innerState n i ai bs lo hi m).1 ++ (innerState n i ai bs lo hi m).2.1)
        + (innerState n i ai bs lo hi m).2.2 * limbMax ^ (i + m)
      = val (lo ++ hi) + ai * limbMax ^ i * val (bs.take m) ∧
    (innerState n i ai bs lo hi m).1.length = n ∧
    (innerState n i ai bs lo hi m).2.1.length = n ∧
    (∀ x ∈ (innerState n i ai bs lo hi m).1
        ++ (innerState n i ai bs lo hi m).2.1, x < limbMax) ∧
    (innerState n i ai bs lo hi m).2.2 < limbMax ∧
    ∀ k, k < i ∨ i + m ≤ k →
      ((innerState n i ai bs lo hi m).1
        ++ (innerState n i ai bs lo hi m).2.1).getD k 0 = (lo ++ hi).getD k 0 := by
  intro m
  induction m with
  | zero =>
    intro _ lo hi hlo hhi hwf
    have h0 : innerState n i ai bs lo hi 0 = (lo, hi, 0) := rfl
    rw [h0]
    exact ⟨by simp [val_nil], hlo, hhi, hwf, limbMax_pos, fun k _ => rfl⟩
  | succ m ih =>
    intro hm lo hi hlo hhi hwf
    have hmn : m ≤ n := Nat.le_of_succ_le hm
    have hmlt : m < n := hm
    obtain ⟨hval, hlen1, hlen2, hwfS, hcS, hout⟩ := ih hmn lo hi hlo hhi hwf
    obtain ⟨hval', hlen1', hlen2', hwf', hc', hout'⟩ :=
      mulWideInner_step_spec n i ai bs (innerState n i ai bs lo hi m) m
        hbw hai hin hmlt hlen1 hlen2 hwfS hcS
    rw [innerState_succ]
    refine ⟨?_, hlen1', hlen2', hwf', hc', ?_⟩
    · rw [hval', hval, val_take_succ bs m (by omega)]
      ring
    · intro k hk
      rw [hout' k (by omega)]
      exact hout k (by omega)

/-- The state of the outer loop of `mul_wide` after `m` of its `LIMBS`
iterations, starting from the two `ZERO` accumulators. -/
def outerState (n : Nat) (a bs : List Nat) (m : Nat) : List Nat × List Nat :=
  (List.range m).foldl (UInt.mulWideOuter n a bs)
    ((UInt.ZERO n).limbs, (UInt.ZERO n).limbs)

theorem outerState_succ (n : Nat) (a bs : List Nat) (m : Nat) :
    outerState n a bs (m + 1)
      = UInt.mulWideOuter n a bs (outerState n a bs m) m := by
  unfold outerState
  rw [List.range_succ, List.foldl_append, List.foldl_cons, List.foldl_nil]

/-- The outer-loop body is: run the inner loop to completion, then deposit
the final carry at `hi[i]`. -/
theorem mulWideOuter_eq (n : Nat) (a bs : List Nat) (T : List Nat × List Nat)
    (i : Nat) :
    UInt.mulWideOuter n a bs T i
      = ((innerState n i (a.getD i 0) bs T.1 T.2 n).1,
         (innerState n i (a.getD i 0) bs T.1 T.2 n).2.1.set i
           (innerState n i (a.getD i 0) bs T.1 T.2 n).2.2) := rfl

/-- Invariant of the outer loop: after `m` rows the combined double-width
accumulator holds `val (as.take m) * val bs`, all entries are below `M`, and
every position from `m + n` upward is still zero. -/
theorem outerState_spec (n : Nat) (as bs : List Nat) (han : as.length = n)
    (hbn : bs.length = n) (haw : ∀ x ∈ as, x < limbMax)
    (hbw : ∀ x ∈ bs, x < limbMax) :
    ∀ (m : Nat), m ≤ n →
    val ((outerState n as bs m).1 ++ (outerState n as bs m).2)
      = val (as.take m) * val bs ∧
    (outerState n as bs m).1.length = n ∧
    (outerState n as bs m).2.length = n ∧
    (∀ x ∈ (outerState n as bs m).1 ++ (outerState n as bs m).2, x < limbMax) ∧
    ∀ k, m + n ≤ k →
      ((outerState n as bs m).1 ++ (outerState n as bs m).2).getD k 0 = 0 := by
  intro m
  induction m with
  | zero =>
    intro _
    have h0 : outerState n as bs 0 = ((UInt.ZERO n).limbs, (UInt.ZERO n).limbs) :=
      rfl
    rw [h0, zero_limbs]
    refine ⟨?_, by simp, by simp, ?_, ?_⟩
    · simp [val_append, val_replicate_zero, val_nil]
    · intro x hx
      rcases List.mem_append.mp hx with h1 | h1 <;>
        · rw [List.eq_of_mem_replicate h1]; exact limbMax_pos
    · intro k _
      rw [← List.replicate_add]
      exact getD_replicate_zero _ _
  | succ m ih =>
    intro hm
    have hmlt : m < n := hm
    obtain ⟨hval, hlen1, hlen2, hwfT, hzero⟩ := ih (Nat.le_of_succ_le hm)
    have hai : as.getD m 0 < limbMax := getD_lt_of_wf haw m
    obtain ⟨hival, hilen1, hilen2, hiwf, hic, hiout⟩ :=
      innerState_spec n m (as.getD m 0) bs hbn hbw hai hmlt n (le_refl n)
        (outerState n as bs m).1 (outerState n as bs m).2 hlen1 hlen2 hwfT
    have htake : bs.take n = bs := by rw [← hbn]; exact List.take_length bs
    rw [outerState_succ, mulWideOuter_eq]
    have hIS1 : (innerState n m (as.getD m 0) bs (outerState n as bs m).1
        (outerState n as bs m).2 n).1.length = n := hilen1
    have hcombset :
        (innerState n m (as.getD m 0) bs (outerState n as bs m).1
            (outerState n as bs m).2 n).1
          ++ (innerState n m (as.getD m 0) bs (outerState n as bs m).1
            (outerState n as bs m).2 n).2.1.set m
              (innerState n m (as.getD m 0) bs (outerState n as bs m).1
                (outerState n as bs m).2 n).2.2
        = ((innerState n m (as.getD m 0) bs (outerState n as bs m).1
            (outerState n as bs m).2 n).1
          ++ (innerState n m (as.getD m 0) bs (outerState n as bs m).1
            (outerState n as bs m).2 n).2.1).set (n + m)
              (innerState n m (as.getD m 0) bs (outerState n as bs m).1
                (outerState n as bs m).2 n).2.2 := by
      rw [List.set_append_right _ _ (by rw [hIS1]; omega), hIS1]
      have : n + m - n = m := by omega
      rw [this]
    have hlen12 : ((innerState n m (as.getD m 0) bs (outerState n as bs m).1
        (outerState n as bs m).2 n).1
        ++ (innerState n m (as.getD m 0) bs (outerState n as bs m).1
          (outerState n as bs m).2 n).2.1).length = n + n := by
      rw [List.length_append, hilen1, hilen2]
    have hpos : n + m < n + n := by omega
    have holdzero : ((innerState n m (as.getD m 0) bs (outerState n as bs m).1
        (outerState n as bs m).2 n).1
        ++ (innerState n m (as.getD m 0) bs (outerState n as bs m).1
          (outerState n as bs m).2 n).2.1).getD (n + m) 0 = 0 := by
      rw [hiout (n + m) (by omega)]
      exact hzero (n + m) (by omega)
    have hset := val_set
      ((innerState n m (as.getD m 0) bs (outerState n as bs m).1
        (outerState n as bs m).2 n).1
        ++ (innerState n m (as.getD m 0) bs (outerState n as bs m).1
          (outerState n as bs m).2 n).2.1) (n + m)
      (innerState n m (as.getD m 0) bs (outerState n as bs m).1
        (outerState n as bs m).2 n).2.2 (by rw [hlen12]; exact hpos)
    rw [holdzero] at hset
    refine ⟨?_, hilen1, by simpa using hilen2, ?_, ?_⟩
    · dsimp only
      rw [hcombset]
      have hpow : limbMax ^ (n + m) = limbMax ^ (m + n) := by rw [Nat.add_comm]
      have hnewval : val (((innerState n m (as.getD m 0) bs (outerState n as bs m).1
            (outerState n as bs m).2 n).1
          ++ (innerState n m (as.getD m 0) bs (outerState n as bs m).1
            (outerState n as bs m).2 n).2.1).set (n + m)
              (innerState n m (as.getD m 0) bs (outerState n as bs m).1
                (outerState n as bs m).2 n).2.2)
          = val ((outerState n as bs m).1 ++ (outerState n as bs m).2)
            + as.getD m 0 * limbMax ^ m * val bs := by
        rw [htake] at hival
        have h1 : val (((innerState n m (as.getD m 0) bs (outerState n as bs m).1
              (outerState n as bs m).2 n).1
            ++ (innerState n m (as.getD m 0) bs (outerState n as bs m).1
              (outerState n as bs m).2 n).2.1).set (n + m)
                (innerState n m (as.getD m 0) bs (outerState n as bs m).1
                  (outerState n as bs m).2 n).2.2)
            = val ((innerState n m (as.getD m 0) bs (outerState n as bs m).1
                (outerState n as bs m).2 n).1
              ++ (innerState n m (as.getD m 0) bs (outerState n as bs m).1
                (outerState n as bs m).2 n).2.1)
              + (innerState n m (as.getD m 0) bs (outerState n as bs m).1
                (outerState n as bs m).2 n).2.2 * limbMax ^ (n + m) := by
          simpa using hset
        rw [h1, hpow, hival]
      rw [hnewval, hval, val_take_succ as m (by omega)]
      ring
    · intro x hx
      dsimp only at hx
      rw [hcombset] at hx
      rcases List.mem_or_eq_of_mem_set hx with h1 | h1
      · exact hiwf x h1
      · rw [h1]; exact hic
    · intro k hk
      dsimp only
      rw [hcombset, getD_set_ne _ _ _ _ (by omega)]
      rw [hiout k (by omega)]
      exact hzero k (by omega)

theorem mul_wide_eq (a b : UInt) :
    a.mul_wide b
      = (⟨(outerState a.limbs.length a.limbs b.limbs a.limbs.length).2⟩,
         ⟨(outerState a.limbs.length a.limbs b.limbs a.limbs.length).1⟩) := rfl

/-- Correctness of `mul_wide`: the low and high halves decompose the full
product `val a * val b`, and both halves are well-formed. -/
theorem mul_wide_spec (a b : UInt) (n : Nat) (ha : Wf n a.limbs)
    (hb : Wf n b.limbs) :
    val (a.mul_wide b).2.limbs + limbMax ^ n * val (a.mul_wide b).1.limbs
        = val a.limbs * val b.limbs ∧
    Wf n (a.mul_wide b).2.limbs ∧ Wf n (a.mul_wide b).1.limbs := by
  obtain ⟨han, haw⟩ := ha
  obtain ⟨hbn, hbw⟩ := hb
  subst han
  obtain ⟨hval, hlen1, hlen2, hwf, _⟩ :=
    outerState_spec a.limbs.length a.limbs b.limbs rfl hbn haw hbw
      a.limbs.length (le_refl _)
  rw [val_append] at hval
  rw [hlen1] at hval
  rw [List.take_length] at hval
  rw [mul_wide_eq]
  refine ⟨hval, ⟨hlen1, ?_⟩, ⟨hlen2, ?_⟩⟩
  · intro x hx
    exact hwf x (List.mem_append.mpr (Or.inl hx))
  · intro x hx
    exact hwf x (List.mem_append.mpr (Or.inr hx))

/-! ### Specifications of the `UInt`-level operations -/

/-- `UInt::adc` correctness: value identity with the carry at weight
`M ^ n`, carry is a bit, output is well-formed. -/
theorem adc_spec (a b : UInt) (n : Nat) (ha : Wf n a.limbs) (hb : Wf n b.limbs)
    (c : Nat) (hc : c ≤ 1) :
    val (a.adc b c).1.limbs + limbMax ^ n * (a.adc b c).2
        = val a.limbs + val b.limbs + c ∧
    (a.adc b c).2 ≤ 1 ∧ Wf n (a.adc b c).1.limbs := by
  obtain ⟨han, haw⟩ := ha
  obtain ⟨hbn, hbw⟩ := hb
  obtain ⟨h1, h2, h3, h4⟩ :=
    adcLimbs_spec a.limbs b.limbs c (by rw [han, hbn]) haw hbw hc
  rw [han] at h1 h3
  exact ⟨h1, h2, ⟨h3, h4⟩⟩

/-- `UInt::sbb` correctness: value identity with the borrow at weight
`M ^ n`, borrow is a bit, output is well-formed. -/
theorem sbb_spec (a b : UInt) (n : Nat) (ha : Wf n a.limbs) (hb : Wf n b.limbs)
    (c : Nat) (hc : c ≤ 1) :
    val a.limbs + limbMax ^ n * (a.sbb b c).2
        = val (a.sbb b c).1.limbs + val b.limbs + c ∧
    (a.sbb b c).2 ≤ 1 ∧ Wf n (a.sbb b c).1.limbs := by
  obtain ⟨han, haw⟩ := ha
  obtain ⟨hbn, hbw⟩ := hb
  obtain ⟨h1, h2, h3, h4⟩ :=
    sbbLimbs_spec a.limbs b.limbs c (by rw [han, hbn]) haw hbw hc
  rw [han] at h1 h3
  exact ⟨h1, h2, ⟨h3, h4⟩⟩

/-- A double-width value has a unique decomposition into a low part below
`P` and a high multiple of `P`. -/
theorem decomp_unique {P lo hi lo2 hi2 : Nat} (hP : 0 < P) (h1 : lo < P)
    (h2 : lo2 < P) (he : lo + P * hi = lo2 + P * hi2) :
    lo = lo2 ∧ hi = hi2 := by
  have e1 : (lo + P * hi) % P = lo := by
    rw [Nat.add_mul_mod_self_left]
    exact Nat.mod_eq_of_lt h1
  have e2 : (lo2 + P * hi2) % P = lo2 := by
    rw [Nat.add_mul_mod_self_left]
    exact Nat.mod_eq_of_lt h2
  have d1 : (lo + P * hi) / P = hi := by
    rw [Nat.add_mul_div_left _ _ hP, Nat.div_eq_of_lt h1]
    omega
  have d2 : (lo2 + P * hi2) / P = hi2 := by
    rw [Nat.add_mul_div_left _ _ hP, Nat.div_eq_of_lt h2]
    omega
  constructor
  · rw [← e1, ← e2, he]
  · rw [← d1, ← d2, he]

/-! ### The claims -/

/-- C1: evaluation of the code at the failing input.  `wrapping_mul` is
`self.mul_wide(rhs).0`, and `mul_wide` returns `(hi, lo)`, so `wrapping_mul`
yields the HIGH half: at `a = b = 1` (one limb) it returns 0, while the low
half of `mul_wide` — the product reduced modulo `2 ^ 64` — is 1. -/
theorem wrapping_mul_returns_high_half :
    UInt.wrapping_mul ⟨[1]⟩ ⟨[1]⟩ = ⟨[0]⟩ ∧
    (UInt.mul_wide ⟨[1]⟩ ⟨[1]⟩).2 = ⟨[1]⟩ ∧
    UInt.toNat ⟨[1]⟩ * UInt.toNat ⟨[1]⟩ % limbMax ^ 1 = 1 := by
  refine ⟨?_, ?_, ?_⟩ <;> decide

/-- C2: evaluation of the code at the failing input.  The source writes
`limbs[i] = Limb::conditional_select(&a.limbs[0], &b.limbs[0], choice)` for
every `i`, so with two limbs and `choice = 0` the result repeats limb 0 of
`a` — `[5, 5]` — instead of keeping `a = [5, 7]`; the index-matched
selection of limb 1 would give 7. -/
theorem conditional_select_uses_index_zero :
    UInt.conditional_select ⟨[5, 7]⟩ ⟨[9, 11]⟩ false = ⟨[5, 5]⟩ ∧
    UInt.conditional_select ⟨[5, 7]⟩ ⟨[9, 11]⟩ true = ⟨[9, 9]⟩ ∧
    limb.conditional_select ((⟨[5, 7]⟩ : UInt).limbs.getD 1 0)
      ((⟨[9, 11]⟩ : UInt).limbs.getD 1 0) false = 7 := by
  refine ⟨?_, ?_, ?_⟩ <;> decide

/-- C3: for well-formed same-width `a`, `b`, the carry-out of `adc(a, b, 0)`
is 1 exactly when the mathematical sum reaches `2 ^ (n * 64)`; `checked_add`
is valid exactly when that carry-out is 0, and then its payload's value is
the full sum `a + b`. -/
theorem adc_carry_and_checked_add (a b : UInt) (n : Nat)
    (ha : Wf n a.limbs) (hb : Wf n b.limbs) :
    ((a.adc b 0).2 = 1 ↔ limbMax ^ n ≤ UInt.toNat a + UInt.toNat b) ∧
    ((a.checked_add b).is_some = true ↔ (a.adc b 0).2 = 0) ∧
    ((a.adc b 0).2 = 0 →
      UInt.toNat (a.checked_add b).value = UInt.toNat a + UInt.toNat b) := by
  obtain ⟨hval, hcle, hwf⟩ := adc_spec a b n ha hb 0 (by omega)
  have hlt : val (a.adc b 0).1.limbs < limbMax ^ n := by
    have h := val_lt hwf.2
    rwa [hwf.1] at h
  refine ⟨?_, ?_, ?_⟩
  · constructor
    · intro h1
      rw [h1] at hval
      simp only [UInt.toNat]
      omega
    · intro hge
      simp only [UInt.toNat] at hge
      by_contra hne
      have h0 : (a.adc b 0).2 = 0 := by omega
      rw [h0] at hval
      omega
  · simp [UInt.checked_add, CtOption.new, limb.ct_eq, CtOption.is_some]
  · intro h0
    rw [h0] at hval
    simp only [UInt.toNat]
    have hv : val (a.checked_add b).value.limbs = val (a.adc b 0).1.limbs := rfl
    rw [hv]
    omega

/-- C3 witness at `a = 2`, `b = 3` with one limb. -/
theorem adc_carry_and_checked_add_witness :
    Wf 1 (⟨[2]⟩ : UInt).limbs ∧ Wf 1 (⟨[3]⟩ : UInt).limbs ∧
    (((UInt.adc ⟨[2]⟩ ⟨[3]⟩ 0).2 = 1 ↔
        limbMax ^ 1 ≤ UInt.toNat ⟨[2]⟩ + UInt.toNat ⟨[3]⟩) ∧
      ((UInt.checked_add ⟨[2]⟩ ⟨[3]⟩).is_some = true ↔
        (UInt.adc ⟨[2]⟩ ⟨[3]⟩ 0).2 = 0) ∧
      ((UInt.adc ⟨[2]⟩ ⟨[3]⟩ 0).2 = 0 →
        UInt.toNat (UInt.checked_add ⟨[2]⟩ ⟨[3]⟩).value
          = UInt.toNat ⟨[2]⟩ + UInt.toNat ⟨[3]⟩)) :=
  ⟨by decide, by decide,
    adc_carry_and_checked_add ⟨[2]⟩ ⟨[3]⟩ 1 (by decide) (by decide)⟩

/-- C5: adding then subtracting the same well-formed value is the identity
modulo the width. -/
theorem wrapping_add_sub_roundtrip (a b : UInt) (n : Nat)
    (ha : Wf n a.limbs) (hb : Wf n b.limbs) :
    (a.wrapping_add b).wrapping_sub b = a := by
  obtain ⟨hadd, hc1le, hwfs⟩ := adc_spec a b n ha hb 0 (by omega)
  have hwfs' : Wf n (a.wrapping_add b).limbs := hwfs
  obtain ⟨hsub, hc2le, hwfo⟩ := sbb_spec (a.wrapping_add b) b n hwfs' hb 0 (by omega)
  have hadd' : val (a.wrapping_add b).limbs + limbMax ^ n * (a.adc b 0).2
      = val a.limbs + val b.limbs + 0 := hadd
  have hA : val a.limbs < limbMax ^ n := by
    have h := val_lt ha.2
    rwa [ha.1] at h
  have hS : val (a.wrapping_add b).limbs < limbMax ^ n := by
    have h := val_lt hwfs'.2
    rwa [hwfs'.1] at h
  have hO : val ((a.wrapping_add b).sbb b 0).1.limbs < limbMax ^ n := by
    have h := val_lt hwfo.2
    rwa [hwfo.1] at h
  have hveq : val ((a.wrapping_add b).sbb b 0).1.limbs = val a.limbs := by
    rcases (by omega : (a.adc b 0).2 = 0 ∨ (a.adc b 0).2 = 1) with h1 | h1 <;>
      rcases (by omega : ((a.wrapping_add b).sbb b 0).2 = 0 ∨
        ((a.wrapping_add b).sbb b 0).2 = 1) with h2 | h2 <;>
      rw [h1] at hadd' <;> rw [h2] at hsub <;> omega
  apply UInt.limbs_ext
  show ((a.wrapping_add b).sbb b 0).1.limbs = a.limbs
  exact val_inj (by rw [hwfo.1, ha.1]) hwfo.2 ha.2 hveq

/-- C5 witness at `a = 4`, `b = 9` with one limb. -/
theorem wrapping_add_sub_roundtrip_witness :
    Wf 1 (⟨[4]⟩ : UInt).limbs ∧ Wf 1 (⟨[9]⟩ : UInt).limbs ∧
    (UInt.wrapping_add ⟨[4]⟩ ⟨[9]⟩).wrapping_sub ⟨[9]⟩ = ⟨[4]⟩ :=
  ⟨by decide, by decide,
    wrapping_add_sub_roundtrip ⟨[4]⟩ ⟨[9]⟩ 1 (by decide) (by decide)⟩

/-- C4: `checked_mul` is valid exactly when the high half of `mul_wide` is
`ZERO` (the validity flag is the constant-time zero-comparison of the high
half), and its payload is the low half of `mul_wide`. -/
theorem checked_mul_valid_iff (a b : UInt) (n : Nat)
    (ha : Wf n a.limbs) (hb : Wf n b.limbs) :
    ((a.checked_mul b).is_some = true ↔ (a.mul_wide b).1 = UInt.ZERO n) ∧
    (a.checked_mul b).value = (a.mul_wide b).2 := by
  obtain ⟨_, hwflo, hwfhi⟩ := mul_wide_spec a b n ha hb
  refine ⟨?_, rfl⟩
  have hlen : (a.mul_wide b).1.limbs.length = n := hwfhi.1
  have hsome : (a.checked_mul b).is_some
      = UInt.ct_eq (a.mul_wide b).1 (UInt.ZERO (a.mul_wide b).1.limbs.length) :=
    rfl
  have hz : UInt.ZERO (a.mul_wide b).1.limbs.length = UInt.ZERO n := by rw [hlen]
  rw [hsome, hz, ct_eq_iff_eq (by rw [hlen, (wf_zero n).1])]
  constructor
  · intro h
    exact UInt.limbs_ext h
  · intro h
    rw [h]

/-- C4 witness at `a = 2`, `b = 3` with one limb. -/
theorem checked_mul_valid_iff_witness :
    Wf 1 (⟨[2]⟩ : UInt).limbs ∧ Wf 1 (⟨[3]⟩ : UInt).limbs ∧
    (((UInt.checked_mul ⟨[2]⟩ ⟨[3]⟩).is_some = true ↔
        (UInt.mul_wide ⟨[2]⟩ ⟨[3]⟩).1 = UInt.ZERO 1) ∧
      (UInt.checked_mul ⟨[2]⟩ ⟨[3]⟩).value = (UInt.mul_wide ⟨[2]⟩ ⟨[3]⟩).2) :=
  ⟨by decide, by decide,
    checked_mul_valid_iff ⟨[2]⟩ ⟨[3]⟩ 1 (by decide) (by decide)⟩

/-- C6: `ONE` is a right multiplicative identity for `mul_wide`, with a
`ZERO` high half. -/
theorem mul_wide_one (a : UInt) (n : Nat) (hn : 1 ≤ n) (ha : Wf n a.limbs) :
    a.mul_wide (UInt.ONE n) = (UInt.ZERO n, a) := by
  obtain ⟨hdecomp, hwflo, hwfhi⟩ := mul_wide_spec a (UInt.ONE n) n ha (wf_one n hn)
  rw [val_one n hn] at hdecomp
  have hA : val a.limbs < limbMax ^ n := by
    have h := val_lt ha.2
    rwa [ha.1] at h
  have hhi0 : val (a.mul_wide (UInt.ONE n)).1.limbs = 0 := by
    by_contra hne
    have hpos : 0 < val (a.mul_wide (UInt.ONE n)).1.limbs := Nat.pos_of_ne_zero hne
    have hge : limbMax ^ n ≤ limbMax ^ n * val (a.mul_wide (UInt.ONE n)).1.limbs :=
      Nat.le_mul_of_pos_right _ hpos
    revert hdecomp hge
    generalize limbMax ^ n * val (a.mul_wide (UInt.ONE n)).1.limbs = q
    intro hdecomp hge
    omega
  have hlo : val (a.mul_wide (UInt.ONE n)).2.limbs = val a.limbs := by
    rw [hhi0] at hdecomp
    simpa using hdecomp
  have h1 : (a.mul_wide (UInt.ONE n)).1 = UInt.ZERO n := by
    apply UInt.limbs_ext
    refine val_inj (by rw [hwfhi.1, (wf_zero n).1]) hwfhi.2 (wf_zero n).2 ?_
    rw [hhi0, val_zero]
  have h2 : (a.mul_wide (UInt.ONE n)).2 = a := by
    apply UInt.limbs_ext
    exact val_inj (by rw [hwflo.1, ha.1]) hwflo.2 ha.2 hlo
  calc a.mul_wide (UInt.ONE n)
      = ((a.mul_wide (UInt.ONE n)).1, (a.mul_wide (UInt.ONE n)).2) := rfl
    _ = (UInt.ZERO n, a) := by rw [h1, h2]

/-- C6 witness at `a = [7, 8]` with two limbs. -/
theorem mul_wide_one_witness :
    1 ≤ 2 ∧ Wf 2 (⟨[7, 8]⟩ : UInt).limbs ∧
    UInt.mul_wide ⟨[7, 8]⟩ (UInt.ONE 2) = (UInt.ZERO 2, ⟨[7, 8]⟩) :=
  ⟨by decide, by decide, mul_wide_one ⟨[7, 8]⟩ 2 (by decide) (by decide)⟩

/-- C7: concatenating the two halves of `split` restores the value, and
splitting a concatenation of two same-width halves restores the pair. -/
theorem split_concat_inverse (x hi lo : UInt)
    (h : hi.limbs.length = lo.limbs.length) :
    UInt.concat x.split.1 x.split.2 = x ∧
    (UInt.concat hi lo).split = (hi, lo) := by
  constructor
  · apply UInt.limbs_ext
    show x.limbs.take (x.limbs.length / 2) ++ x.limbs.drop (x.limbs.length / 2)
        = x.limbs
    exact List.take_append_drop _ _
  · have hhalf : (lo.limbs ++ hi.limbs).length / 2 = lo.limbs.length := by
      rw [List.length_append]
      omega
    have h1 : (UInt.concat hi lo).split.1 = hi := by
      apply UInt.limbs_ext
      show (lo.limbs ++ hi.limbs).drop ((lo.limbs ++ hi.limbs).length / 2)
          = hi.limbs
      rw [hhalf]
      exact List.drop_left _ _
    have h2 : (UInt.concat hi lo).split.2 = lo := by
      apply UInt.limbs_ext
      show (lo.limbs ++ hi.limbs).take ((lo.limbs ++ hi.limbs).length / 2)
          = lo.limbs
      rw [hhalf]
      exact List.take_left _ _
    calc (UInt.concat hi lo).split
        = ((UInt.concat hi lo).split.1, (UInt.concat hi lo).split.2) := rfl
      _ = (hi, lo) := by rw [h1, h2]

/-- C7 witness at `x = [1, 2]`, `hi = [3]`, `lo = [4]`. -/
theorem split_concat_inverse_witness :
    (⟨[3]⟩ : UInt).limbs.length = (⟨[4]⟩ : UInt).limbs.length ∧
    (UInt.concat (UInt.split ⟨[1, 2]⟩).1 (UInt.split ⟨[1, 2]⟩).2 = ⟨[1, 2]⟩ ∧
      (UInt.concat ⟨[3]⟩ ⟨[4]⟩).split = (⟨[3]⟩, ⟨[4]⟩)) :=
  ⟨by decide, split_concat_inverse ⟨[1, 2]⟩ ⟨[3]⟩ ⟨[4]⟩ (by decide)⟩

/-- C8: the constant-time equality flag is reflexive, and for same-width
values it is set exactly when every corresponding pair of limbs is equal. -/
theorem ct_eq_refl_and_limbwise (x y : UInt) (n : Nat)
    (hx : x.limbs.length = n) (hy : y.limbs.length = n) :
    UInt.ct_eq x x = true ∧
    (UInt.ct_eq x y = true ↔
      ∀ i, i < n → x.limbs.getD i 0 = y.limbs.getD i 0) := by
  constructor
  · exact (ct_eq_iff_eq rfl).mpr rfl
  · rw [ct_eq_eq_all, zip_all_eq_iff x.limbs y.limbs (by rw [hx, hy]), hx]

/-- C8 witness at `x = [2, 3]`, `y = [2, 4]`. -/
theorem ct_eq_refl_and_limbwise_witness :
    (⟨[2, 3]⟩ : UInt).limbs.length = 2 ∧ (⟨[2, 4]⟩ : UInt).limbs.length = 2 ∧
    (UInt.ct_eq ⟨[2, 3]⟩ ⟨[2, 3]⟩ = true ∧
      (UInt.ct_eq ⟨[2, 3]⟩ ⟨[2, 4]⟩ = true ↔
        ∀ i, i < 2 →
          (⟨[2, 3]⟩ : UInt).limbs.getD i 0 = (⟨[2, 4]⟩ : UInt).limbs.getD i 0)) :=
  ⟨by decide, by decide,
    ct_eq_refl_and_limbwise ⟨[2, 3]⟩ ⟨[2, 4]⟩ 2 (by decide) (by decide)⟩

/-- C9: `checked_sub` is valid exactly when the borrow-out of `sbb(a, b, 0)`
is zero, which happens exactly when `b ≤ a`; when valid its payload's value
is the difference `a - b`. -/
theorem checked_sub_valid_iff (a b : UInt) (n : Nat)
    (ha : Wf n a.limbs) (hb : Wf n b.limbs) :
    ((a.checked_sub b).is_some = true ↔ (a.sbb b 0).2 = 0) ∧
    ((a.sbb b 0).2 = 0 ↔ UInt.toNat b ≤ UInt.toNat a) ∧
    ((a.checked_sub b).is_some = true →
      UInt.toNat (a.checked_sub b).value = UInt.toNat a - UInt.toNat b) := by
  obtain ⟨hsub, hble, hwfo⟩ := sbb_spec a b n ha hb 0 (by omega)
  have hA : val a.limbs < limbMax ^ n := by
    have h := val_lt ha.2
    rwa [ha.1] at h
  have hO : val (a.sbb b 0).1.limbs < limbMax ^ n := by
    have h := val_lt hwfo.2
    rwa [hwfo.1] at h
  have hiff : (a.checked_sub b).is_some = true ↔ (a.sbb b 0).2 = 0 := by
    simp [UInt.checked_sub, CtOption.new, limb.ct_eq, CtOption.is_some]
  refine ⟨hiff, ?_, ?_⟩
  · simp only [UInt.toNat]
    constructor
    · intro h0
      rw [h0] at hsub
      omega
    · intro hBA
      by_contra hne
      have h1 : (a.sbb b 0).2 = 1 := by omega
      rw [h1] at hsub
      omega
  · intro hvalid
    have h0 : (a.sbb b 0).2 = 0 := hiff.mp hvalid
    rw [h0] at hsub
    simp only [UInt.toNat]
    have hv : val (a.checked_sub b).value.limbs = val (a.sbb b 0).1.limbs := rfl
    rw [hv]
    omega

/-- C9 witness at `a = 5`, `b = 3` with one limb. -/
theorem checked_sub_valid_iff_witness :
    Wf 1 (⟨[5]⟩ : UInt).limbs ∧ Wf 1 (⟨[3]⟩ : UInt).limbs ∧
    (((UInt.checked_sub ⟨[5]⟩ ⟨[3]⟩).is_some = true ↔
        (UInt.sbb ⟨[5]⟩ ⟨[3]⟩ 0).2 = 0) ∧
      ((UInt.sbb ⟨[5]⟩ ⟨[3]⟩ 0).2 = 0 ↔
        UInt.toNat ⟨[3]⟩ ≤ UInt.toNat ⟨[5]⟩) ∧
      ((UInt.checked_sub ⟨[5]⟩ ⟨[3]⟩).is_some = true →
        UInt.toNat (UInt.checked_sub ⟨[5]⟩ ⟨[3]⟩).value
          = UInt.toNat ⟨[5]⟩ - UInt.toNat ⟨[3]⟩)) :=
  ⟨by decide, by decide,
    checked_sub_valid_iff ⟨[5]⟩ ⟨[3]⟩ 1 (by decide) (by decide)⟩

/-- C10: wide multiplication of well-formed same-width values is
commutative in both halves, and so are `wrapping_mul` and `checked_mul`. -/
theorem mul_wide_comm (a b : UInt) (n : Nat)
    (ha : Wf n a.limbs) (hb : Wf n b.limbs) :
    a.mul_wide b = b.mul_wide a ∧
    a.wrapping_mul b = b.wrapping_mul a ∧
    a.checked_mul b = b.checked_mul a := by
  obtain ⟨hab, hablo, habhi⟩ := mul_wide_spec a b n ha hb
  obtain ⟨hba, hbalo, hbahi⟩ := mul_wide_spec b a n hb ha
  have hlo1 : val (a.mul_wide b).2.limbs < limbMax ^ n := by
    have h := val_lt hablo.2
    rwa [hablo.1] at h
  have hlo2 : val (b.mul_wide a).2.limbs < limbMax ^ n := by
    have h := val_lt hbalo.2
    rwa [hbalo.1] at h
  have hsame : val (a.mul_wide b).2.limbs + limbMax ^ n * val (a.mul_wide b).1.limbs
      = val (b.mul_wide a).2.limbs + limbMax ^ n * val (b.mul_wide a).1.limbs := by
    rw [hab, hba, Nat.mul_comm]
  obtain ⟨hle, hhe⟩ := decomp_unique (Nat.pos_pow_of_pos n limbMax_pos) hlo1 hlo2 hsame
  have hpair : a.mul_wide b = b.mul_wide a := by
    have h1 : (a.mul_wide b).1 = (b.mul_wide a).1 := by
      apply UInt.limbs_ext
      exact val_inj (by rw [habhi.1, hbahi.1]) habhi.2 hbahi.2 hhe
    have h2 : (a.mul_wide b).2 = (b.mul_wide a).2 := by
      apply UInt.limbs_ext
      exact val_inj (by rw [hablo.1, hbalo.1]) hablo.2 hbalo.2 hle
    calc a.mul_wide b = ((a.mul_wide b).1, (a.mul_wide b).2) := rfl
      _ = ((b.mul_wide a).1, (b.mul_wide a).2) := by rw [h1, h2]
      _ = b.mul_wide a := rfl
  refine ⟨hpair, ?_, ?_⟩
  · show (a.mul_wide b).1 = (b.mul_wide a).1
    rw [hpair]
  · show CtOption.new (a.mul_wide b).2 (a.mul_wide b).1.is_zero
        = CtOption.new (b.mul_wide a).2 (b.mul_wide a).1.is_zero
    rw [hpair]

/-- C10 witness at `a = [2, 3]`, `b = [4, 5]`. -/
theorem mul_wide_comm_witness :
    Wf 2 (⟨[2, 3]⟩ : UInt).limbs ∧ Wf 2 (⟨[4, 5]⟩ : UInt).limbs ∧
    (UInt.mul_wide ⟨[2, 3]⟩ ⟨[4, 5]⟩ = UInt.mul_wide ⟨[4, 5]⟩ ⟨[2, 3]⟩ ∧
      UInt.wrapping_mul ⟨[2, 3]⟩ ⟨[4, 5]⟩ = UInt.wrapping_mul ⟨[4, 5]⟩ ⟨[2, 3]⟩ ∧
      UInt.checked_mul ⟨[2, 3]⟩ ⟨[4, 5]⟩ = UInt.checked_mul ⟨[4, 5]⟩ ⟨[2, 3]⟩) :=
  ⟨by decide, by decide,
    mul_wide_comm ⟨[2, 3]⟩ ⟨[4, 5]⟩ 2 (by decide) (by decide)⟩

end CryptoBigint
